import Mathlib

/-!
Verification development for the quotes ETL scraper (`Webscraping.py`).

Strings are modelled as `List Char` (`Str`), Python `len` as `List.length`,
and the mutable `self.metrics` dictionary as an explicit `Metrics` record
threaded through each stage.  The network and the HTML parser are abstracted:
a site is a partial map from page identifiers to already-extracted page data,
which is exactly the interface `extract_all_pages` consumes.
-/

namespace Webscraping

/-- Strings are lists of characters; Python `len(s)` is `s.length`. -/
abbrev Str := List Char

/-- Convenience conversion from Lean string literals to the model type. -/
def str (s : String) : Str := s.data

/-- Whitespace characters, modelling the character class matched by the
regular expression `\s` and stripped by `str.strip()` / split by `str.split()`. -/
def isSpace (c : Char) : Bool :=
  c = ' ' || c = '\t' || c = '\n' || c = '\r' || c = '\x0b' || c = '\x0c'

/-- Remove leading whitespace (the left half of Python `str.strip()`). -/
def stripLeft (s : Str) : Str := s.dropWhile isSpace

/-- Remove trailing whitespace (the right half of Python `str.strip()`). -/
def stripRight : Str → Str
  | [] => []
  | c :: cs =>
    let r := stripRight cs
    if r = [] ∧ isSpace c then [] else c :: r

/-- Python `str.strip()`: remove leading and trailing whitespace. -/
def stripList (s : Str) : Str := stripRight (stripLeft s)

/-- Worker for `collapseWS`; the flag records whether the previous character
was part of a whitespace run already replaced by a single space. -/
def collapseGo : Bool → Str → Str
  | _, [] => []
  | prev, c :: cs =>
    if isSpace c then
      if prev then collapseGo true cs else ' ' :: collapseGo true cs
    else c :: collapseGo false cs

/-- Python `re.sub(r'\s+', ' ', s)`: replace each maximal whitespace run by
a single space. -/
def collapseWS (s : Str) : Str := collapseGo false s

/-- Python `s.replace(a, b)` for single-character `a`, `b`. -/
def replaceChar (a b : Char) (s : Str) : Str :=
  s.map (fun c => if c = a then b else c)

/-- Unicode NFKD decomposition, modelled per character for the code points
that occur in this program: the precomposed letters appearing inside the
quote-marker literals of `clean_quote_text` decompose into a base letter
followed by a combining mark; every other character is its own (already
decomposed) normal form. -/
def nfkdChar (c : Char) : Str :=
  if c = 'Ä' then ['A', '̈']
  else if c = 'ú' then ['u', '́']
  else if c = 'ù' then ['u', '̀']
  else if c = 'é' then ['e', '́']
  else [c]

/-- Characters the modelled NFKD table decomposes. -/
def nfkdDecomposable (c : Char) : Bool :=
  c = 'Ä' || c = 'ú' || c = 'ù' || c = 'é'

/-- Python `unicodedata.normalize("NFKD", s)` over the modelled table. -/
def nfkd (s : Str) : Str := s.flatMap nfkdChar

/-- The literal the source passes to `startswith`: the three characters
U+201A, U+00C4, U+00FA (a mojibake rendering of a left curly quote). -/
def leftQuoteMark : Str := ['‚', 'Ä', 'ú']

/-- The literal the source passes to `endswith`: the three characters
U+201A, U+00C4, U+00F9 (a mojibake rendering of a right curly quote). -/
def rightQuoteMark : Str := ['‚', 'Ä', 'ù']

/-- Python `str.lower()` restricted to ASCII letters, the case relevant to
this program's tag and key data. -/
def pyToLower (c : Char) : Char :=
  if 65 ≤ c.toNat ∧ c.toNat ≤ 90 then Char.ofNat (c.toNat + 32) else c

/-- Python `str.lower()` applied to a whole string. -/
def pyLower (s : Str) : Str := s.map pyToLower

/-- The character class `\w` of the `re` module: letters, digits and the
underscore. -/
def isWordChar (c : Char) : Bool := c.isAlphanum || c = '_'

/-- ASCII uppercase test. -/
def isAsciiUpper (c : Char) : Bool := 65 ≤ c.toNat && c.toNat ≤ 90

/-- Worker for `pySplit`, accumulating the current (reversed) token. -/
def splitGo (cur : Str) : Str → List Str
  | [] => if cur = [] then [] else [cur.reverse]
  | c :: cs =>
    if isSpace c then
      if cur = [] then splitGo [] cs else cur.reverse :: splitGo [] cs
    else splitGo (c :: cur) cs

/-- Python `str.split()` with no arguments: whitespace-run separated tokens,
leading/trailing whitespace ignored. -/
def pySplit (s : Str) : List Str := splitGo [] s

/-- True when the string does not begin with a whitespace character. -/
def headNotSpaceB : Str → Bool
  | [] => true
  | c :: _ => !isSpace c

/-- True when the string does not end with a whitespace character. -/
def lastNotSpaceB : Str → Bool
  | [] => true
  | [c] => !isSpace c
  | _ :: c :: cs => lastNotSpaceB (c :: cs)

/-- True when no two adjacent characters are both whitespace. -/
def noAdjWS : Str → Bool
  | a :: b :: rest => (!(isSpace a && isSpace b)) && noAdjWS (b :: rest)
  | _ => true

/-- Every whitespace character of the string is a plain space. -/
def wsOnly (s : Str) : Prop := ∀ c ∈ s, isSpace c = true → c = ' '

/-- Lexicographic comparison of strings by code point, the order used by
Python string comparison and hence by `sorted`. -/
def strLe : Str → Str → Bool
  | [], _ => true
  | _ :: _, [] => false
  | a :: as, b :: bs => if a < b then true else if b < a then false else strLe as bs

/-- The sorting relation for `sorted` on strings, in `Prop` form. -/
def tagLe (a b : Str) : Prop := strLe a b = true

instance : DecidableRel tagLe := fun a b => instDecidableEqBool (strLe a b) true

-- ==================== FIELD CLEANERS ====================

/-- The quote-marker removal step of `clean_quote_text`: when the string
starts with the (mojibake) left quote marker and ends with the right one,
drop one character from each end (the Python slice `cleaned[1:-1]`). -/
def quoteStripStep (cleaned : Str) : Str :=
  if leftQuoteMark.isPrefixOf cleaned && rightQuoteMark.isSuffixOf cleaned then
    (cleaned.drop 1).dropLast
  else cleaned

/-- `QuotesETL.clean_quote_text`: NFKD-normalize, strip, apply the
quote-marker removal, collapse whitespace runs, replace the three ASCII
control whitespace characters by spaces, and strip again. -/
def clean_quote_text (raw_text : Str) : Str :=
  if raw_text = [] then []
  else
    stripList (replaceChar '\t' ' ' (replaceChar '\r' ' ' (replaceChar '\n' ' '
      (collapseWS (quoteStripStep (stripList (nfkd raw_text)))))))

/-- `QuotesETL.clean_author_name`: strip, collapse whitespace, delete every
character outside `\w`, whitespace, hyphen and period, and strip again. -/
def clean_author_name (raw_author : Str) : Str :=
  if raw_author = [] then []
  else
    let cleaned := stripList raw_author
    let cleaned := collapseWS cleaned
    let cleaned := cleaned.filter (fun c => isWordChar c || isSpace c || c = '-' || c = '.')
    stripList cleaned

/-- The per-tag normalization inside `QuotesETL.clean_tags`:
`tag.strip().lower()` followed by `re.sub(r'[^\w\-]', '', ...)`. -/
def cleanTag (t : Str) : Str :=
  (pyLower (stripList t)).filter (fun c => isWordChar c || c = '-')

/-- The accumulation loop of `QuotesETL.clean_tags`: skip falsy tags, clean
each tag, and append it when non-empty and not already collected. -/
def cleanTagsLoop (acc : List Str) : List Str → List Str
  | [] => acc
  | t :: ts =>
    if t = [] then cleanTagsLoop acc ts
    else
      let ct := cleanTag t
      if ct ≠ [] ∧ ct ∉ acc then cleanTagsLoop (acc ++ [ct]) ts
      else cleanTagsLoop acc ts

/-- `QuotesETL.clean_tags`: empty input yields the empty list; otherwise the
deduplicating loop followed by `sorted`. -/
def clean_tags (raw_tags : List Str) : List Str :=
  if raw_tags = [] then []
  else List.insertionSort tagLe (cleanTagsLoop [] raw_tags)

/-- `QuotesETL.standardize_author_link`: empty stays empty, a site-relative
link (leading slash) is joined onto the base URL, anything else passes
through.  `urljoin` is modelled as concatenation, which is its behavior for
an origin-only base URL and an absolute-path link. -/
def standardize_author_link (base raw_link : Str) : Str :=
  if raw_link = [] then []
  else if raw_link.head? = some '/' then base ++ raw_link
  else raw_link

-- ==================== RECORDS AND METRICS ====================

/-- The `self.metrics` dictionary of `QuotesETL`. -/
structure Metrics where
  total_pages_scraped : Nat
  total_quotes_extracted : Nat
  total_quotes_cleaned : Nat
  errors_encountered : Nat
  duplicate_quotes_removed : Nat
deriving DecidableEq, Repr

/-- Increment `errors_encountered`. -/
def incErrors (m : Metrics) : Metrics :=
  { m with errors_encountered := m.errors_encountered + 1 }

/-- Increment `duplicate_quotes_removed`. -/
def incDup (m : Metrics) : Metrics :=
  { m with duplicate_quotes_removed := m.duplicate_quotes_removed + 1 }

/-- A raw record as built by `extract_quotes_from_soup`.  Fields are
`Option`s because `transform_single_quote` reads them with `dict.get` and a
default, so the model distinguishes a present field from an absent one. -/
structure RawQuote where
  raw_text : Option Str
  raw_author : Option Str
  raw_tags : Option (List Str)
  raw_author_link : Option Str
  source_url : Option Str
  extraction_order : Option Nat
  extraction_timestamp : Option Nat
deriving DecidableEq, Repr

/-- A transformed record as built by `transform_single_quote`. -/
structure CleanRecord where
  quote_text : Str
  author : Str
  tags : List Str
  author_link : Str
  source_url : Str
  extraction_order : Nat
  word_count : Nat
  tag_count : Nat
  character_count : Nat
  processed_timestamp : Nat
deriving DecidableEq, Repr

-- ==================== TRANSFORM PHASE ====================

/-- `QuotesETL.transform_single_quote`: clean every field, compute the
derived counts from the raw fields, and discard the record (returning no
output and untouched metrics) when the cleaned text or author is empty.
`base` is `self.base_url` and `now` stands for `time.time()`. -/
def transform_single_quote (base : Str) (now : Nat) (m : Metrics) (raw : RawQuote) :
    Option CleanRecord × Metrics :=
  let q : CleanRecord :=
    { quote_text := clean_quote_text (raw.raw_text.getD [])
      author := clean_author_name (raw.raw_author.getD [])
      tags := clean_tags (raw.raw_tags.getD [])
      author_link := standardize_author_link base (raw.raw_author_link.getD [])
      source_url := raw.source_url.getD []
      extraction_order := raw.extraction_order.getD 0
      word_count := (pySplit (raw.raw_text.getD [])).length
      tag_count := (raw.raw_tags.getD []).length
      character_count := (raw.raw_text.getD []).length
      processed_timestamp := now }
  if q.quote_text = [] ∨ q.author = [] then (none, m) else (some q, m)

/-- The per-record loop of `QuotesETL.transform_all_quotes`: transform each
raw record and keep the successful results in order. -/
def transformLoop (base : Str) (now : Nat) (m : Metrics) :
    List RawQuote → List CleanRecord × Metrics
  | [] => ([], m)
  | r :: rs =>
    match transform_single_quote base now m r with
    | (some q, m1) =>
      let p := transformLoop base now m1 rs
      (q :: p.1, p.2)
    | (none, m1) => transformLoop base now m1 rs

/-- The deduplication key of `remove_duplicates`:
`(quote_text.lower(), author.lower())`. -/
def dupKey (q : CleanRecord) : Str × Str := (pyLower q.quote_text, pyLower q.author)

/-- The loop of `QuotesETL.remove_duplicates`: keep the first record bearing
each key, count every later record with a seen key in
`duplicate_quotes_removed`. -/
def removeDupsAux (m : Metrics) (seen : List (Str × Str)) :
    List CleanRecord → List CleanRecord × Metrics
  | [] => ([], m)
  | q :: qs =>
    if dupKey q ∈ seen then removeDupsAux (incDup m) seen qs
    else
      let p := removeDupsAux m (dupKey q :: seen) qs
      (q :: p.1, p.2)

/-- `QuotesETL.remove_duplicates`. -/
def remove_duplicates (m : Metrics) (qs : List CleanRecord) :
    List CleanRecord × Metrics :=
  removeDupsAux m [] qs

/-- `QuotesETL.transform_all_quotes`: transform every raw record, drop the
duplicates, and record the surviving count in `total_quotes_cleaned`. -/
def transform_all_quotes (base : Str) (now : Nat) (m : Metrics) (raws : List RawQuote) :
    List CleanRecord × Metrics :=
  let p := transformLoop base now m raws
  let u := remove_duplicates p.2 p.1
  (u.1, { u.2 with total_quotes_cleaned := u.1.length })

-- ==================== LOAD PHASE (VALIDATION) ====================

/-- The `is_valid` computation of `QuotesETL.validate_data` for one record:
text must be truthy with stripped length at least 5, author truthy with
stripped length at least 2, and raw text length at most 1000. -/
def quoteValid (q : CleanRecord) : Bool :=
  !(q.quote_text.isEmpty || decide ((stripList q.quote_text).length < 5)
    || q.author.isEmpty || decide ((stripList q.author).length < 2)
    || decide (1000 < q.quote_text.length))

/-- `QuotesETL.validate_data`: keep the valid records, increment
`errors_encountered` for each rejected one. -/
def validate_data (m : Metrics) : List CleanRecord → List CleanRecord × Metrics
  | [] => ([], m)
  | q :: qs =>
    if quoteValid q then
      let p := validate_data m qs
      (q :: p.1, p.2)
    else validate_data (incErrors m) qs

-- ==================== EXTRACT PHASE ====================

/-- What `extract_quotes_from_soup` and `extract_next_page_url` recover from
one fetched page: the raw records on it and the resolved next-page URL, if
any.  Page URLs are abstracted to identifiers. -/
structure PageData where
  quotes : List RawQuote
  next_url : Option Nat
deriving DecidableEq, Repr

/-- `QuotesETL.extract_page_content`: a fetch either yields a parsed page or
fails, incrementing `errors_encountered`. -/
def extract_page_content (site : Nat → Option PageData) (m : Metrics) (url : Nat) :
    Option PageData × Metrics :=
  match site url with
  | none => (none, incErrors m)
  | some p => (some p, m)

/-- The loop guard of `extract_all_pages`:
`max_pages is None or page_count < max_pages`. -/
def underCap (max_pages : Option Nat) (page_count : Nat) : Bool :=
  match max_pages with
  | none => true
  | some mp => page_count < mp

/-- The while-loop of `QuotesETL.extract_all_pages`, with explicit fuel to
bound the iteration count in the model; on exhausted fuel the accumulated
records are returned as-is. -/
def extractAllPagesGo (site : Nat → Option PageData) (max_pages : Option Nat) :
    Nat → Option Nat → Nat → List RawQuote → Metrics → List RawQuote × Metrics
  | _, none, _, acc, m => (acc, m)
  | 0, some _, _, acc, m => (acc, m)
  | fuel + 1, some url, page_count, acc, m =>
    if underCap max_pages page_count then
      match extract_page_content site m url with
      | (none, m1) => (acc, m1)
      | (some page, m1) =>
        let m2 := { m1 with
          total_pages_scraped := m1.total_pages_scraped + 1,
          total_quotes_extracted := m1.total_quotes_extracted + page.quotes.length }
        extractAllPagesGo site max_pages fuel page.next_url (page_count + 1)
          (acc ++ page.quotes) m2
    else (acc, m)

/-- `QuotesETL.extract_all_pages`: start at `start` with no pages counted and
nothing accumulated. -/
def extract_all_pages (site : Nat → Option PageData) (start : Nat)
    (max_pages : Option Nat) (fuel : Nat) (m : Metrics) : List RawQuote × Metrics :=
  extractAllPagesGo site max_pages fuel (some start) 0 [] m

-- ==================== CONCRETE FIXTURES ====================

/-- Fresh metrics, as initialized in `QuotesETL.__init__`. -/
def m0 : Metrics := ⟨0, 0, 0, 0, 0⟩

/-- The default `base_url` of `QuotesETL`. -/
def baseUrl : Str := str "http://quotes.toscrape.com"

/-- A raw record with every field present. -/
def rawEx : RawQuote :=
  { raw_text := some (str "hello brave world")
    raw_author := some (str "Ada Lovelace")
    raw_tags := some [str "Maths", str "maths", str "code!"]
    raw_author_link := some (str "/author/Ada-Lovelace")
    source_url := some (str "http://quotes.toscrape.com/page/1/")
    extraction_order := some 3
    extraction_timestamp := some 17 }

/-- A raw record whose author field is missing: its cleaned author is empty,
so the transformer must discard it. -/
def rawNoAuthor : RawQuote :=
  { raw_text := some (str "hello brave world")
    raw_author := none
    raw_tags := some []
    raw_author_link := none
    source_url := some (str "http://quotes.toscrape.com/page/1/")
    extraction_order := some 0
    extraction_timestamp := some 17 }

/-- A clean record that passes validation. -/
def recOk : CleanRecord :=
  { quote_text := str "hello brave world"
    author := str "Ada Lovelace"
    tags := [str "code", str "maths"]
    author_link := str "http://quotes.toscrape.com/author/Ada-Lovelace"
    source_url := str "http://quotes.toscrape.com/page/1/"
    extraction_order := 3
    word_count := 3
    tag_count := 3
    character_count := 17
    processed_timestamp := 5 }

/-- A clean record whose author is too short: validation must reject it. -/
def recShortAuthor : CleanRecord :=
  { recOk with author := str "A" }

/-- A duplicate of `recOk` up to letter case of the key fields. -/
def recOkShout : CleanRecord :=
  { recOk with quote_text := str "HELLO brave WORLD", extraction_order := 7 }

/-- A one-page site: page 0 carries one record and no next link. -/
def site1 : Nat → Option PageData :=
  fun u => if u = 0 then some ⟨[rawEx], none⟩ else none

-- ==================== SUPPORTING LEMMAS ====================

/-- A successful transform returns exactly the record built from the raw
fields, with the metrics untouched. -/
theorem transform_single_quote_eq_some {base : Str} {now : Nat} {m m2 : Metrics}
    {raw : RawQuote} {q : CleanRecord}
    (h : transform_single_quote base now m raw = (some q, m2)) :
    q = { quote_text := clean_quote_text (raw.raw_text.getD [])
          author := clean_author_name (raw.raw_author.getD [])
          tags := clean_tags (raw.raw_tags.getD [])
          author_link := standardize_author_link base (raw.raw_author_link.getD [])
          source_url := raw.source_url.getD []
          extraction_order := raw.extraction_order.getD 0
          word_count := (pySplit (raw.raw_text.getD [])).length
          tag_count := (raw.raw_tags.getD []).length
          character_count := (raw.raw_text.getD []).length
          processed_timestamp := now } ∧ m2 = m := by
  unfold transform_single_quote at h
  simp only [] at h
  split at h
  · exact absurd h (by simp)
  · injection h with h1 h2
    injection h1 with h1
    exact ⟨h1.symm, h2.symm⟩

-- ==================== CLAIM C1 ====================

/-- Claim C1 as stated is false: on a one-page site holding one record,
running the driver with `max_pages = 0` fetches no page at all and returns
nothing, while running it with `max_pages = None` returns the page's
record; the two runs differ, and the zero-cap run scrapes zero pages. -/
theorem extract_cap_zero_counterexample :
    (extract_all_pages site1 0 (some 0) 5 m0).1 = [] ∧
    (extract_all_pages site1 0 none 5 m0).1 = [rawEx] ∧
    (extract_all_pages site1 0 (some 0) 5 m0).1 ≠ (extract_all_pages site1 0 none 5 m0).1 ∧
    (extract_all_pages site1 0 (some 0) 5 m0).2.total_pages_scraped = 0 := by
  decide

/-- Claim C1 amended: only `max_pages = None` means unlimited; a page cap of
zero makes `extract_all_pages` stop before fetching any page, returning the
empty accumulation with the metrics untouched, on every site. -/
theorem extract_cap_zero_fetches_nothing (site : Nat → Option PageData)
    (start fuel : Nat) (m : Metrics) :
    extract_all_pages site start (some 0) fuel m = ([], m) := by
  cases fuel <;> rfl

-- ==================== CLAIM C9 ====================

/-- Claim C9: whenever `transform_single_quote` produces a clean record, its
derived metrics are computed from the raw, pre-clean fields: `word_count`
is the whitespace-split token count of `raw_text`, `character_count` is the
length of `raw_text`, and `tag_count` is the length of `raw_tags`. -/
theorem derived_counts_from_raw (base : Str) (now : Nat) (m m2 : Metrics)
    (raw : RawQuote) (q : CleanRecord)
    (h : transform_single_quote base now m raw = (some q, m2)) :
    q.word_count = (pySplit (raw.raw_text.getD [])).length ∧
    q.character_count = (raw.raw_text.getD []).length ∧
    q.tag_count = (raw.raw_tags.getD []).length := by
  obtain ⟨hq, -⟩ := transform_single_quote_eq_some h
  subst hq
  exact ⟨rfl, rfl, rfl⟩

/-- Witness for C9 at a concrete raw record. -/
theorem derived_counts_from_raw_witness :
    recOk.word_count = (pySplit (rawEx.raw_text.getD [])).length ∧
    recOk.character_count = (rawEx.raw_text.getD []).length ∧
    recOk.tag_count = (rawEx.raw_tags.getD []).length :=
  derived_counts_from_raw baseUrl 5 m0 m0 rawEx recOk (by decide)

-- ==================== CLAIM C10 ====================

/-- Claim C10: whenever `transform_single_quote` produces a clean record, the
record carries the source_url and extraction_order of the raw record
verbatim when they are present, and the defaults (empty string, 0) exactly
when they are absent. -/
theorem transform_preserves_provenance (base : Str) (now : Nat) (m m2 : Metrics)
    (raw : RawQuote) (q : CleanRecord)
    (h : transform_single_quote base now m raw = (some q, m2)) :
    (∀ u, raw.source_url = some u → q.source_url = u) ∧
    (raw.source_url = none → q.source_url = []) ∧
    (∀ i, raw.extraction_order = some i → q.extraction_order = i) ∧
    (raw.extraction_order = none → q.extraction_order = 0) := by
  obtain ⟨hq, -⟩ := transform_single_quote_eq_some h
  subst hq
  refine ⟨fun u hu => ?_, fun hu => ?_, fun i hi => ?_, fun hi => ?_⟩
  · simp [hu]
  · simp [hu]
  · simp [hi]
  · simp [hi]

/-- Witness for C10 at a concrete raw record. -/
theorem transform_preserves_provenance_witness :
    (∀ u, rawEx.source_url = some u → recOk.source_url = u) ∧
    (rawEx.source_url = none → recOk.source_url = []) ∧
    (∀ i, rawEx.extraction_order = some i → recOk.extraction_order = i) ∧
    (rawEx.extraction_order = none → recOk.extraction_order = 0) :=
  transform_preserves_provenance baseUrl 5 m0 m0 rawEx recOk (by decide)

-- ==================== CLAIM C7 ====================

/-- Claim C7: a raw record whose cleaned quote text or cleaned author is
empty produces no output record, leaves the metrics (in particular
`errors_encountered`) untouched, and its discard does not disturb the
processing of the remaining records of the batch. -/
theorem transform_drops_blank_records (base : Str) (now : Nat) (m : Metrics)
    (raw : RawQuote) (rest : List RawQuote)
    (h : clean_quote_text (raw.raw_text.getD []) = [] ∨
         clean_author_name (raw.raw_author.getD []) = []) :
    transform_single_quote base now m raw = (none, m) ∧
    transformLoop base now m (raw :: rest) = transformLoop base now m rest := by
  have h1 : transform_single_quote base now m raw = (none, m) := by
    unfold transform_single_quote
    simp only []
    split
    · rfl
    · next hc => exact absurd h hc
  refine ⟨h1, ?_⟩
  simp only [transformLoop, h1]

/-- Witness for C7: a raw record with a missing author field is dropped
silently. -/
theorem transform_drops_blank_records_witness :
    transform_single_quote baseUrl 5 m0 rawNoAuthor = (none, m0) ∧
    transformLoop baseUrl 5 m0 (rawNoAuthor :: [rawEx]) = transformLoop baseUrl 5 m0 [rawEx] :=
  transform_drops_blank_records baseUrl 5 m0 rawNoAuthor [rawEx] (Or.inr (by decide))

-- ==================== CLAIM C8 ====================

/-- The model of `transform_single_quote` never touches the metrics. -/
theorem transform_single_quote_metrics (base : Str) (now : Nat) (m : Metrics)
    (raw : RawQuote) : (transform_single_quote base now m raw).2 = m := by
  unfold transform_single_quote
  simp only []
  split <;> rfl

/-- The transform loop never touches the metrics: in particular no
content-quality drop there is counted as an error. -/
theorem transformLoop_metrics (base : Str) (now : Nat) (raws : List RawQuote) :
    ∀ m, (transformLoop base now m raws).2 = m := by
  induction raws with
  | nil => intro m; rfl
  | cons r rs ih =>
    intro m
    have h2 := transform_single_quote_metrics base now m r
    simp only [transformLoop]
    rcases htr : transform_single_quote base now m r with ⟨o, m1⟩
    rw [htr] at h2
    cases o
    · rw [ih m1]; exact h2
    · simpa [ih m1] using h2

/-- Deduplication never touches `errors_encountered`. -/
theorem removeDupsAux_errors (qs : List CleanRecord) :
    ∀ m seen, (removeDupsAux m seen qs).2.errors_encountered = m.errors_encountered := by
  induction qs with
  | nil => intros; rfl
  | cons q qs ih =>
    intro m seen
    simp only [removeDupsAux]
    split
    · rw [ih]; rfl
    · exact ih m _

/-- Validation increments `errors_encountered` once for every record it
rejects. -/
theorem validate_data_errors (qs : List CleanRecord) :
    ∀ m, (validate_data m qs).2.errors_encountered
      = m.errors_encountered + (qs.filter (fun q => !quoteValid q)).length := by
  induction qs with
  | nil => intro m; simp [validate_data]
  | cons q qs ih =>
    intro m
    simp only [validate_data]
    split
    · next hv => simp [List.filter_cons, hv, ih]
    · next hv =>
      rw [Bool.not_eq_true] at hv
      have := ih (incErrors m)
      simp only [List.filter_cons, hv, Bool.not_false, if_pos]
      rw [this]
      simp only [incErrors, List.length_cons]
      omega

/-- Claim C8 fails at the validation stage: a record dropped by
`validate_data` for a too-short author is counted in `errors_encountered`,
which moves from 0 to 1. -/
theorem validation_drop_counts_error_counterexample :
    quoteValid recShortAuthor = false ∧
    (validate_data m0 [recShortAuthor]).1 = [] ∧
    (validate_data m0 [recShortAuthor]).2.errors_encountered ≠ m0.errors_encountered := by
  decide

/-- Claim C8 amended: a content-quality rejection increments
`errors_encountered` in none of the transform and deduplication stages, but
at the validation stage every rejected record does increment
`errors_encountered` (by exactly the number of dropped records). -/
theorem quality_drop_error_accounting (base : Str) (now : Nat) (m : Metrics)
    (raws : List RawQuote) (qs qs2 : List CleanRecord) :
    (transformLoop base now m raws).2.errors_encountered = m.errors_encountered ∧
    (remove_duplicates m qs).2.errors_encountered = m.errors_encountered ∧
    (validate_data m qs2).2.errors_encountered
      = m.errors_encountered + (qs2.filter (fun q => !quoteValid q)).length := by
  exact ⟨by rw [transformLoop_metrics], removeDupsAux_errors qs m [],
    validate_data_errors qs2 m⟩

-- ==================== CLAIM C4 ====================

/-- The validation predicate the specification states: text length between
5 and 1000, author length at least 2.  Written from the spec sentence, to be
compared with the source-derived `quoteValid`. -/
def specValid (q : CleanRecord) : Bool :=
  decide (5 ≤ q.quote_text.length ∧ q.quote_text.length ≤ 1000 ∧ 2 ≤ q.author.length)

/-- For a record whose key fields carry no outer whitespace, the `is_valid`
test of `validate_data` is exactly the length-window predicate of the
specification. -/
theorem quoteValid_of_stripped (q : CleanRecord)
    (h1 : stripList q.quote_text = q.quote_text) (h2 : stripList q.author = q.author) :
    quoteValid q = specValid q := by
  unfold quoteValid specValid
  rw [h1, h2]
  have e1 : q.quote_text.isEmpty = decide (q.quote_text.length = 0) := by
    cases q.quote_text <;> simp
  have e2 : q.author.isEmpty = decide (q.author.length = 0) := by
    cases q.author <;> simp
  rw [e1, e2, Bool.eq_iff_iff]
  simp only [Bool.not_eq_true', Bool.or_eq_false_iff, decide_eq_false_iff_not,
    decide_eq_true_eq]
  omega

/-- The kept-record list of `validate_data` is a filter of its input. -/
theorem validate_data_eq_filter (qs : List CleanRecord) :
    ∀ m, (∀ q ∈ qs, stripList q.quote_text = q.quote_text ∧ stripList q.author = q.author) →
      (validate_data m qs).1 = qs.filter specValid := by
  induction qs with
  | nil => intros; rfl
  | cons q qs ih =>
    intro m h
    have hq := h q (by simp)
    have hrest : ∀ r ∈ qs, stripList r.quote_text = r.quote_text ∧
        stripList r.author = r.author := fun r hr => h r (by simp [hr])
    simp only [validate_data]
    split
    · next hv =>
      rw [quoteValid_of_stripped q hq.1 hq.2] at hv
      simp [List.filter_cons, hv, ih _ hrest]
    · next hv =>
      rw [Bool.not_eq_true, quoteValid_of_stripped q hq.1 hq.2] at hv
      simp [List.filter_cons, hv, ih _ hrest]

/-- Claim C4: over records whose text and author carry no outer whitespace
(as all records produced by the transform stage do), `validate_data` is a
pure filter: its output is exactly the input records satisfying
`5 ≤ len(quote_text) ≤ 1000` and `len(author) ≥ 2` — every kept record
satisfies the bounds, every dropped record violates one, and records pass
through unrewritten. -/
theorem validate_pure_filter (m : Metrics) (qs : List CleanRecord)
    (h : ∀ q ∈ qs, stripList q.quote_text = q.quote_text ∧ stripList q.author = q.author) :
    (validate_data m qs).1 = qs.filter specValid ∧
    (∀ q ∈ (validate_data m qs).1,
      5 ≤ q.quote_text.length ∧ q.quote_text.length ≤ 1000 ∧ 2 ≤ q.author.length) ∧
    (∀ q ∈ qs,
      ¬(5 ≤ q.quote_text.length ∧ q.quote_text.length ≤ 1000 ∧ 2 ≤ q.author.length) →
      q ∉ (validate_data m qs).1) := by
  have heq := validate_data_eq_filter qs m h
  refine ⟨heq, fun q hq => ?_, fun q hq hviol hmem => ?_⟩
  · rw [heq] at hq
    have hv := List.of_mem_filter hq
    unfold specValid at hv
    exact of_decide_eq_true hv
  · rw [heq] at hmem
    have hv := List.of_mem_filter hmem
    unfold specValid at hv
    exact hviol (of_decide_eq_true hv)

/-- Witness for C4 on a concrete two-record list: the valid record is kept,
the short-author record is dropped. -/
theorem validate_pure_filter_witness :
    (validate_data m0 [recOk, recShortAuthor]).1 = [recOk, recShortAuthor].filter specValid ∧
    (∀ q ∈ (validate_data m0 [recOk, recShortAuthor]).1,
      5 ≤ q.quote_text.length ∧ q.quote_text.length ≤ 1000 ∧ 2 ≤ q.author.length) ∧
    (∀ q ∈ [recOk, recShortAuthor],
      ¬(5 ≤ q.quote_text.length ∧ q.quote_text.length ≤ 1000 ∧ 2 ≤ q.author.length) →
      q ∉ (validate_data m0 [recOk, recShortAuthor]).1) :=
  validate_pure_filter m0 [recOk, recShortAuthor] (by decide)

-- ==================== CLAIM C3 ====================

/-- Full characterization of the deduplication loop relative to the keys
already marked as seen: the survivors are a sublist of the input, there are
as many of them as there are fresh distinct keys, for every fresh key
exactly the earliest record with that key survives, for every seen key no
record survives, and the duplicate counter absorbs the difference. -/
theorem removeDupsAux_spec (qs : List CleanRecord) :
    ∀ (m : Metrics) (seen : List (Str × Str)),
      (removeDupsAux m seen qs).1.Sublist qs ∧
      (removeDupsAux m seen qs).1.length
        = ((qs.map dupKey).toFinset \ seen.toFinset).card ∧
      (∀ k, k ∉ seen →
        (removeDupsAux m seen qs).1.filter (fun q => decide (dupKey q = k))
          = (qs.filter (fun q => decide (dupKey q = k))).take 1) ∧
      (∀ k, k ∈ seen →
        (removeDupsAux m seen qs).1.filter (fun q => decide (dupKey q = k)) = []) ∧
      (removeDupsAux m seen qs).2.duplicate_quotes_removed
          + (removeDupsAux m seen qs).1.length
        = m.duplicate_quotes_removed + qs.length := by
  induction qs with
  | nil =>
    intro m seen
    refine ⟨List.nil_sublist [], ?_, fun k _ => rfl, fun k _ => rfl, ?_⟩ <;>
      simp [removeDupsAux]
  | cons q qs ih =>
    intro m seen
    simp only [removeDupsAux]
    split
    · next hmem =>
      obtain ⟨ihS, ihL, ihF, ihE, ihC⟩ := ih (incDup m) seen
      refine ⟨ihS.cons q, ?_, fun k hk => ?_, fun k hk => ihE k hk, ?_⟩
      · rw [ihL, List.map_cons, List.toFinset_cons,
          Finset.insert_sdiff_of_mem _ (List.mem_toFinset.mpr hmem)]
      · have hne : ¬(dupKey q = k) := fun he => hk (he ▸ hmem)
        rw [ihF k hk, List.filter_cons]
        simp [hne]
      · have hd : (incDup m).duplicate_quotes_removed = m.duplicate_quotes_removed + 1 := rfl
        simp only [List.length_cons]
        omega
    · next hmem =>
      obtain ⟨ihS, ihL, ihF, ihE, ihC⟩ := ih m (dupKey q :: seen)
      simp only []
      refine ⟨ihS.cons₂ q, ?_, fun k hk => ?_, fun k hk => ?_, ?_⟩
      · have hset : (dupKey q :: qs.map dupKey).toFinset \ seen.toFinset
            = insert (dupKey q)
                ((qs.map dupKey).toFinset \ (dupKey q :: seen).toFinset) := by
          ext x
          simp only [List.toFinset_cons, Finset.mem_sdiff, Finset.mem_insert,
            List.mem_toFinset, List.mem_cons]
          by_cases hx : x = dupKey q
          · subst hx; simp [hmem]
          · simp [hx]
        have hni : dupKey q ∉ (qs.map dupKey).toFinset \ (dupKey q :: seen).toFinset := by
          simp [Finset.mem_sdiff]
        rw [List.map_cons, hset, Finset.card_insert_of_not_mem hni,
          List.length_cons, ihL]
      · by_cases hkq : dupKey q = k
        · subst hkq
          have hfe := ihE (dupKey q) (by simp)
          simp [List.filter_cons, hfe]
        · have hk2 : k ∉ (dupKey q :: seen) := by
            simp only [List.mem_cons, not_or]
            exact ⟨fun he => hkq he.symm, hk⟩
          simp [List.filter_cons, hkq, ihF k hk2]
      · have hne : ¬(dupKey q = k) := fun he => hmem (he ▸ hk)
        simp [List.filter_cons, hne, ihE k (by simp [hk])]
      · simp only [List.length_cons]
        omega

/-- Claim C3: `remove_duplicates` never increases the record count; on N
input records carrying K distinct normalized `(quote_text, author)` keys it
returns exactly K records in original order, for every key exactly the
earliest-arriving record with that key, and it increments
`duplicate_quotes_removed` by N minus K. -/
theorem remove_duplicates_spec (m : Metrics) (qs : List CleanRecord) :
    (remove_duplicates m qs).1.Sublist qs ∧
    (remove_duplicates m qs).1.length ≤ qs.length ∧
    (remove_duplicates m qs).1.length = (qs.map dupKey).toFinset.card ∧
    (∀ k, (remove_duplicates m qs).1.filter (fun q => decide (dupKey q = k))
        = (qs.filter (fun q => decide (dupKey q = k))).take 1) ∧
    (remove_duplicates m qs).2.duplicate_quotes_removed
      = m.duplicate_quotes_removed + (qs.length - (qs.map dupKey).toFinset.card) := by
  obtain ⟨hS, hL, hF, -, hC⟩ := removeDupsAux_spec qs m []
  have hLe : (remove_duplicates m qs).1.length ≤ qs.length := hS.length_le
  have hK : (remove_duplicates m qs).1.length = (qs.map dupKey).toFinset.card := by
    show (removeDupsAux m [] qs).1.length = _
    rw [hL]
    simp
  refine ⟨hS, hLe, hK, fun k => hF k (List.not_mem_nil k), ?_⟩
  have hC2 : (remove_duplicates m qs).2.duplicate_quotes_removed
      + (remove_duplicates m qs).1.length
      = m.duplicate_quotes_removed + qs.length := hC
  omega

-- ==================== CLAIM C5 ====================

/-- The string order is total. -/
theorem strLe_total (a : Str) : ∀ b, strLe a b = true ∨ strLe b a = true := by
  induction a with
  | nil => intro b; left; rfl
  | cons x as ih =>
    intro b
    cases b with
    | nil => right; rfl
    | cons y bs =>
      rcases lt_trichotomy x y with h | h | h
      · left; simp [strLe, h]
      · subst h
        rcases ih bs with h2 | h2
        · left; simp [strLe, lt_irrefl, h2]
        · right; simp [strLe, lt_irrefl, h2]
      · right; simp [strLe, h]

/-- The string order is transitive. -/
theorem strLe_trans (a : Str) :
    ∀ b c, strLe a b = true → strLe b c = true → strLe a c = true := by
  induction a with
  | nil => intros; rfl
  | cons x as ih =>
    intro b c h1 h2
    cases b with
    | nil => simp [strLe] at h1
    | cons y bs =>
      cases c with
      | nil => simp [strLe] at h2
      | cons z cs =>
        simp only [strLe] at h1 h2 ⊢
        rcases lt_trichotomy x y with hxy | hxy | hxy
        · rcases lt_trichotomy y z with hyz | hyz | hyz
          · simp [lt_trans hxy hyz]
          · subst hyz; simp [hxy]
          · simp [asymm hyz, hyz] at h2
        · subst hxy
          rcases lt_trichotomy x z with hyz | hyz | hyz
          · simp [hyz]
          · subst hyz
            simp only [lt_irrefl, if_neg (lt_irrefl x)] at h1 h2 ⊢
            simp at h1 h2
            exact ih bs cs h1 h2
          · simp [asymm hyz, hyz] at h2
        · simp [asymm hxy, hxy] at h1

instance : IsTotal Str tagLe := ⟨fun a b => strLe_total a b⟩

instance : IsTrans Str tagLe := ⟨fun a b c => strLe_trans a b c⟩

/-- The accumulation loop of `clean_tags` preserves distinctness of the
collected tags. -/
theorem cleanTagsLoop_nodup (ts : List Str) :
    ∀ acc : List Str, acc.Nodup → (cleanTagsLoop acc ts).Nodup := by
  induction ts with
  | nil => intro acc h; exact h
  | cons t ts ih =>
    intro acc h
    simp only [cleanTagsLoop]
    split
    · exact ih acc h
    · split
      · next hcond =>
        apply ih
        simp [List.nodup_append, h, hcond.2]
      · exact ih acc h

/-- Claim C5: for every input list — including the empty list and lists of
entirely invalid tags — the output of `clean_tags` is sorted ascending in
the string order and contains no duplicate entry, and empty input yields
the empty list. -/
theorem clean_tags_sorted_nodup (raw_tags : List Str) :
    (clean_tags raw_tags).Sorted tagLe ∧ (clean_tags raw_tags).Nodup ∧
    clean_tags [] = [] := by
  refine ⟨?_, ?_, rfl⟩
  · unfold clean_tags
    split
    · exact List.sorted_nil
    · exact List.sorted_insertionSort tagLe _
  · unfold clean_tags
    split
    · exact List.nodup_nil
    · exact ((List.perm_insertionSort tagLe _).nodup_iff).mpr
        (cleanTagsLoop_nodup raw_tags [] List.nodup_nil)

-- ==================== CLAIM C6 ====================

/-- Lowercasing never produces an ASCII uppercase letter. -/
theorem pyToLower_not_upper (c : Char) : isAsciiUpper (pyToLower c) = false := by
  unfold pyToLower
  split
  · next h =>
    obtain ⟨h1, h2⟩ := h
    unfold isAsciiUpper
    set n := c.toNat with hn
    interval_cases n <;> decide
  · next h =>
    unfold isAsciiUpper
    simp only [Bool.and_eq_false_iff, decide_eq_false_iff_not]
    omega

/-- Every character of a cleaned tag is a word character or a hyphen, and is
not an ASCII uppercase letter. -/
theorem cleanTag_chars (t0 : Str) :
    ∀ c ∈ cleanTag t0, (isWordChar c = true ∨ c = '-') ∧ isAsciiUpper c = false := by
  intro c hc
  unfold cleanTag at hc
  have h1 := List.of_mem_filter hc
  have h2 := List.mem_of_mem_filter hc
  constructor
  · simpa using h1
  · unfold pyLower at h2
    rcases List.mem_map.mp h2 with ⟨c0, -, hc0⟩
    rw [← hc0]
    exact pyToLower_not_upper c0

/-- Every tag surviving the accumulation loop is either already in the
accumulator or the cleaning of some raw tag. -/
theorem mem_cleanTagsLoop (ts : List Str) :
    ∀ acc t, t ∈ cleanTagsLoop acc ts → t ∈ acc ∨ ∃ t0, t = cleanTag t0 := by
  induction ts with
  | nil => intro acc t h; exact Or.inl h
  | cons s ts ih =>
    intro acc t h
    simp only [cleanTagsLoop] at h
    split at h
    · exact ih acc t h
    · split at h
      · rcases ih _ t h with hin | hex
        · rcases List.mem_append.mp hin with h1 | h1
          · exact Or.inl h1
          · right; exact ⟨s, by simpa using h1⟩
        · exact Or.inr hex
      · exact ih acc t h

/-- Claim C6 fails as stated: the input tag consisting of a single
underscore survives `clean_tags` unchanged, and the underscore is neither
alphanumeric nor a hyphen. -/
theorem clean_tags_underscore_counterexample :
    clean_tags [str "_"] = [str "_"] ∧
    ¬(∀ t ∈ clean_tags [str "_"], ∀ c ∈ t, c.isAlphanum = true ∨ c = '-') := by
  decide

/-- Claim C6 amended: every tag produced by `clean_tags` consists only of
word characters (letters, digits or the underscore — the class `\w` kept by
the tag regex) and hyphens, and contains no ASCII uppercase letter. -/
theorem clean_tags_chars (raw_tags : List Str) :
    ∀ t ∈ clean_tags raw_tags, ∀ c ∈ t,
      (isWordChar c = true ∨ c = '-') ∧ isAsciiUpper c = false := by
  intro t ht c hc
  unfold clean_tags at ht
  split at ht
  · simp at ht
  · rw [List.mem_insertionSort] at ht
    rcases mem_cleanTagsLoop raw_tags [] t ht with hin | ⟨t0, rfl⟩
    · simp at hin
    · exact cleanTag_chars t0 c hc

/-- Witness for the amended C6 at a concrete tag list. -/
theorem clean_tags_chars_witness :
    (isWordChar 'm' = true ∨ 'm' = '-') ∧ isAsciiUpper 'm' = false :=
  clean_tags_chars [str "Maths"] (str "maths") (by decide) 'm' (by decide)

-- ==================== CLAIM C2 ====================

/-- Normal form of the adjacency invariant on a cons cell. -/
theorem noAdjWS_cons (c : Char) (l : Str) :
    noAdjWS (c :: l) = ((!isSpace c || headNotSpaceB l) && noAdjWS l) := by
  cases l with
  | nil => simp [noAdjWS, headNotSpaceB]
  | cons b rest => simp [noAdjWS, headNotSpaceB, Bool.not_and]

/-- The adjacency invariant passes to the tail. -/
theorem noAdjWS_tail {c : Char} {l : Str} (h : noAdjWS (c :: l) = true) :
    noAdjWS l = true := by
  rw [noAdjWS_cons, Bool.and_eq_true] at h
  exact h.2

/-- Left-stripping only removes characters. -/
theorem mem_stripLeft {c : Char} {s : Str} (h : c ∈ stripLeft s) : c ∈ s :=
  (List.dropWhile_sublist isSpace).subset h

/-- Right-stripping only removes characters. -/
theorem mem_stripRight {c : Char} (s : Str) (h : c ∈ stripRight s) : c ∈ s := by
  induction s with
  | nil => exact h
  | cons a t ih =>
    simp only [stripRight] at h
    split at h
    · exact absurd h (List.not_mem_nil c)
    · rcases List.mem_cons.mp h with rfl | h2
      · exact List.mem_cons_self _ _
      · exact List.mem_cons_of_mem a (ih h2)

/-- Stripping only removes characters. -/
theorem mem_stripList {c : Char} {s : Str} (h : c ∈ stripList s) : c ∈ s :=
  mem_stripLeft (mem_stripRight _ h)

/-- A character of a collapsed string is a plain space or a non-whitespace
character of the original string. -/
theorem mem_collapseGo {c : Char} (s : Str) :
    ∀ prev, c ∈ collapseGo prev s → c = ' ' ∨ (c ∈ s ∧ isSpace c = false) := by
  induction s with
  | nil => intro prev h; exact absurd h (List.not_mem_nil c)
  | cons a t ih =>
    intro prev h
    simp only [collapseGo] at h
    split at h
    · split at h
      · rcases ih true h with h2 | ⟨h2, h3⟩
        · exact Or.inl h2
        · exact Or.inr ⟨List.mem_cons_of_mem a h2, h3⟩
      · rcases List.mem_cons.mp h with rfl | h2
        · exact Or.inl rfl
        · rcases ih true h2 with h3 | ⟨h3, h4⟩
          · exact Or.inl h3
          · exact Or.inr ⟨List.mem_cons_of_mem a h3, h4⟩
    · next hns =>
      rcases List.mem_cons.mp h with rfl | h2
      · exact Or.inr ⟨List.mem_cons_self _ _, by simpa using hns⟩
      · rcases ih false h2 with h3 | ⟨h3, h4⟩
        · exact Or.inl h3
        · exact Or.inr ⟨List.mem_cons_of_mem a h3, h4⟩

/-- Collapsed strings carry only plain spaces as whitespace. -/
theorem wsOnly_collapseGo (prev : Bool) (s : Str) : wsOnly (collapseGo prev s) := by
  intro c hc hsp
  rcases mem_collapseGo s prev hc with h | ⟨-, hns⟩
  · exact h
  · rw [hns] at hsp
    exact absurd hsp (by simp)

/-- After a space was just emitted, the collapse worker never emits another
space first. -/
theorem headNotSpace_collapseGo (s : Str) :
    headNotSpaceB (collapseGo true s) = true := by
  induction s with
  | nil => rfl
  | cons a t ih =>
    simp only [collapseGo]
    split
    · next hs => exact ih
    · next hs => simpa [headNotSpaceB] using hs

/-- Collapsed strings have no two adjacent whitespace characters. -/
theorem noAdjWS_collapseGo (s : Str) : ∀ prev, noAdjWS (collapseGo prev s) = true := by
  induction s with
  | nil => intro prev; rfl
  | cons a t ih =>
    intro prev
    simp only [collapseGo]
    split
    · split
      · exact ih true
      · rw [noAdjWS_cons, headNotSpace_collapseGo t, ih true]
        simp
    · next hns =>
      rw [noAdjWS_cons, ih false]
      simp [headNotSpaceB, hns]

/-- A string whose whitespace is plain, isolated spaces is a fixed point of
the collapse worker (with the flag clear; with the flag set it additionally
must not start with a space). -/
theorem collapseGo_fix (s : Str) (hws : wsOnly s) (hadj : noAdjWS s = true) :
    collapseGo false s = s ∧
    (headNotSpaceB s = true → collapseGo true s = s) := by
  induction s with
  | nil => exact ⟨rfl, fun _ => rfl⟩
  | cons c t ih =>
    have hws2 : wsOnly t := fun d hd => hws d (List.mem_cons_of_mem c hd)
    obtain ⟨ihf, iht⟩ := ih hws2 (noAdjWS_tail hadj)
    by_cases hc : isSpace c = true
    · have hc2 : c = ' ' := hws c (List.mem_cons_self c t) hc
      subst hc2
      have hh : headNotSpaceB t = true := by
        rw [noAdjWS_cons, Bool.and_eq_true] at hadj
        have h1 := hadj.1
        rw [Bool.or_eq_true] at h1
        rcases h1 with h2 | h2
        · rw [hc] at h2
          exact absurd h2 (by simp)
        · exact h2
      constructor
      · simp [collapseGo, hc, iht hh]
      · intro hhead
        rw [headNotSpaceB, hc] at hhead
        exact absurd hhead (by simp)
    · have hc3 : isSpace c = false := by simpa using hc
      constructor
      · simp [collapseGo, hc3, ihf]
      · intro _
        simp [collapseGo, hc3, ihf]

/-- Replacing a whitespace character by a space does not change the
whitespace profile of any character. -/
theorem isSpace_replaceFn (a : Char) (ha : isSpace a = true) (c : Char) :
    isSpace (if c = a then ' ' else c) = isSpace c := by
  split
  · next he => rw [he, ha]; rfl
  · rfl

/-- Character replacement of a whitespace character by a space preserves the
head-not-space invariant. -/
theorem headNotSpaceB_replaceChar (a : Char) (ha : isSpace a = true) (l : Str) :
    headNotSpaceB (replaceChar a ' ' l) = headNotSpaceB l := by
  cases l with
  | nil => rfl
  | cons c t => simp [replaceChar, headNotSpaceB, isSpace_replaceFn a ha c]

/-- Character replacement of a whitespace character by a space preserves the
adjacency invariant. -/
theorem noAdjWS_replaceChar (a : Char) (ha : isSpace a = true) (l : Str) :
    noAdjWS (replaceChar a ' ' l) = noAdjWS l := by
  induction l with
  | nil => rfl
  | cons c t ih =>
    have hmap : replaceChar a ' ' (c :: t)
        = (if c = a then ' ' else c) :: replaceChar a ' ' t := rfl
    rw [hmap, noAdjWS_cons, noAdjWS_cons, ih,
      headNotSpaceB_replaceChar a ha t, isSpace_replaceFn a ha c]

/-- Character replacement of a whitespace character by a space keeps all
whitespace as plain spaces. -/
theorem wsOnly_replaceChar (a : Char) (s : Str) (h : wsOnly s) :
    wsOnly (replaceChar a ' ' s) := by
  intro c hc hsp
  rcases List.mem_map.mp hc with ⟨c0, hc0, rfl⟩
  split
  · rfl
  · next hne =>
    exact h c0 hc0 (by simpa [hne] using hsp)

/-- Replacement is the identity when the replaced character is absent. -/
theorem replaceChar_of_not_mem (a b : Char) (s : Str) (h : ∀ c ∈ s, c ≠ a) :
    replaceChar a b s = s := by
  induction s with
  | nil => rfl
  | cons c t ih =>
    have hc : c ≠ a := h c (List.mem_cons_self c t)
    simp only [replaceChar, List.map_cons, if_neg hc]
    rw [show List.map (fun c => if c = a then b else c) t = replaceChar a b t from rfl,
      ih (fun d hd => h d (List.mem_cons_of_mem c hd))]

/-- Left-stripping leaves no leading whitespace. -/
theorem headNotSpaceB_stripLeft (s : Str) : headNotSpaceB (stripLeft s) = true := by
  induction s with
  | nil => rfl
  | cons c t ih =>
    rw [stripLeft, List.dropWhile_cons]
    split
    · exact ih
    · next h => simpa [headNotSpaceB] using h

/-- A string with no leading whitespace is unchanged by left-stripping. -/
theorem stripLeft_of_headNot (s : Str) (h : headNotSpaceB s = true) :
    stripLeft s = s := by
  cases s with
  | nil => rfl
  | cons c t =>
    cases hsp : isSpace c with
    | true =>
      rw [headNotSpaceB, hsp] at h
      exact absurd h (by simp)
    | false =>
      rw [stripLeft, List.dropWhile_cons, if_neg (by simp [hsp])]

/-- The last-character invariant ignores a cons onto a nonempty list. -/
theorem lastNotSpaceB_cons (c : Char) (l : Str) (h : l ≠ []) :
    lastNotSpaceB (c :: l) = lastNotSpaceB l := by
  cases l with
  | nil => exact absurd rfl h
  | cons b t => rfl

/-- Right-stripping leaves no trailing whitespace. -/
theorem lastNotSpaceB_stripRight (s : Str) : lastNotSpaceB (stripRight s) = true := by
  induction s with
  | nil => rfl
  | cons c t ih =>
    simp only [stripRight]
    split
    · rfl
    · next h =>
      rcases he : stripRight t with - | ⟨b, r⟩
      · rw [he] at h
        have hc : isSpace c = false := by
          revert h
          cases isSpace c <;> simp
        simp [lastNotSpaceB, hc]
      · rw [lastNotSpaceB_cons c (b :: r) (by simp), ← he]
        exact ih

/-- A string with no trailing whitespace is unchanged by right-stripping. -/
theorem stripRight_of_lastNot (s : Str) (h : lastNotSpaceB s = true) :
    stripRight s = s := by
  induction s with
  | nil => rfl
  | cons c t ih =>
    cases t with
    | nil =>
      have hc : isSpace c = false := by
        rw [lastNotSpaceB] at h
        revert h
        cases isSpace c <;> simp
      simp [stripRight, hc]
    | cons b t2 =>
      have ih2 := ih (h : lastNotSpaceB (b :: t2) = true)
      show (if stripRight (b :: t2) = [] ∧ isSpace c = true then []
        else c :: stripRight (b :: t2)) = c :: b :: t2
      rw [ih2, if_neg (by simp)]

/-- Right-stripping preserves absence of leading whitespace. -/
theorem headNotSpaceB_stripRight (s : Str) (h : headNotSpaceB s = true) :
    headNotSpaceB (stripRight s) = true := by
  cases s with
  | nil => rfl
  | cons c t =>
    simp only [stripRight]
    split
    · rfl
    · exact h

/-- Left-stripping preserves the adjacency invariant. -/
theorem noAdjWS_stripLeft (s : Str) (h : noAdjWS s = true) :
    noAdjWS (stripLeft s) = true := by
  induction s with
  | nil => exact h
  | cons c t ih =>
    rw [stripLeft, List.dropWhile_cons]
    split
    · exact ih (noAdjWS_tail h)
    · exact h

/-- The right strip of a cons is empty or keeps the head. -/
theorem stripRight_cons_cases (c : Char) (t : Str) :
    stripRight (c :: t) = [] ∨ stripRight (c :: t) = c :: stripRight t := by
  simp only [stripRight]
  split
  · exact Or.inl rfl
  · exact Or.inr rfl

/-- Right-stripping preserves the adjacency invariant. -/
theorem noAdjWS_stripRight (s : Str) (h : noAdjWS s = true) :
    noAdjWS (stripRight s) = true := by
  induction s with
  | nil => exact h
  | cons c t ih =>
    rcases stripRight_cons_cases c t with he | he
    · rw [he]; rfl
    · rw [he, noAdjWS_cons]
      have ht := ih (noAdjWS_tail h)
      rw [noAdjWS_cons, Bool.and_eq_true] at h
      have h1 := h.1
      rw [Bool.or_eq_true] at h1
      rcases h1 with h2 | h2
      · simp [h2, ht]
      · simp [headNotSpaceB_stripRight t h2, ht]

/-- Characters missed by the decomposition table decompose to themselves. -/
theorem nfkdChar_default (a : Char) (h1 : a ≠ 'Ä') (h2 : a ≠ 'ú')
    (h3 : a ≠ 'ù') (h4 : a ≠ 'é') : nfkdChar a = [a] := by
  unfold nfkdChar
  rw [if_neg h1, if_neg h2, if_neg h3, if_neg h4]

/-- Characters missed by the decomposition table are not decomposable. -/
theorem nfkdDecomposable_eq_false (a : Char) (h1 : a ≠ 'Ä') (h2 : a ≠ 'ú')
    (h3 : a ≠ 'ù') (h4 : a ≠ 'é') : nfkdDecomposable a = false := by
  simp [nfkdDecomposable, h1, h2, h3, h4]

/-- The decomposition table outputs only fully decomposed characters. -/
theorem nfkdChar_not_decomposable (a : Char) :
    ∀ c ∈ nfkdChar a, nfkdDecomposable c = false := by
  intro c hc
  by_cases h1 : a = 'Ä'
  · subst h1
    rw [show nfkdChar 'Ä' = ['A', '̈'] from by decide] at hc
    simp at hc
    rcases hc with rfl | rfl <;> decide
  by_cases h2 : a = 'ú'
  · subst h2
    rw [show nfkdChar 'ú' = ['u', '́'] from by decide] at hc
    simp at hc
    rcases hc with rfl | rfl <;> decide
  by_cases h3 : a = 'ù'
  · subst h3
    rw [show nfkdChar 'ù' = ['u', '̀'] from by decide] at hc
    simp at hc
    rcases hc with rfl | rfl <;> decide
  by_cases h4 : a = 'é'
  · subst h4
    rw [show nfkdChar 'é' = ['e', '́'] from by decide] at hc
    simp at hc
    rcases hc with rfl | rfl <;> decide
  · rw [nfkdChar_default a h1 h2 h3 h4] at hc
    simp at hc
    subst hc
    exact nfkdDecomposable_eq_false c h1 h2 h3 h4

/-- Normalized strings contain no decomposable character. -/
theorem nfkd_not_decomposable (s : Str) :
    ∀ c ∈ nfkd s, nfkdDecomposable c = false := by
  induction s with
  | nil => intro c hc; exact absurd hc (List.not_mem_nil c)
  | cons a t ih =>
    intro c hc
    rw [nfkd, List.flatMap_cons] at hc
    rcases List.mem_append.mp hc with h | h
    · exact nfkdChar_not_decomposable a c h
    · exact ih c h

/-- A string without decomposable characters is a fixed point of the
normalization. -/
theorem nfkd_fixed (s : Str) (h : ∀ c ∈ s, nfkdDecomposable c = false) :
    nfkd s = s := by
  induction s with
  | nil => rfl
  | cons a t ih =>
    have ha := h a (List.mem_cons_self a t)
    simp only [nfkdDecomposable, Bool.or_eq_false_iff, decide_eq_false_iff_not] at ha
    obtain ⟨⟨⟨h1, h2⟩, h3⟩, h4⟩ := ha
    have ht : t.flatMap nfkdChar = t := ih (fun c hc => h c (List.mem_cons_of_mem a hc))
    rw [nfkd, List.flatMap_cons, nfkdChar_default a h1 h2 h3 h4, ht]
    rfl

/-- A string not containing the (undecomposed) letter at index 1 of the
quote marker can never match it as a prefix. -/
theorem leftQuoteMark_never_matches (s : Str) (h : 'Ä' ∉ s) :
    leftQuoteMark.isPrefixOf s = false := by
  cases s with
  | nil => rfl
  | cons a t =>
    cases t with
    | nil => simp [leftQuoteMark, List.isPrefixOf]
    | cons b t2 =>
      have hb : b ≠ 'Ä' := fun he => h (by simp [he])
      have hbeq : ('Ä' == b) = false :=
        beq_eq_false_iff_ne.mpr (fun he => hb he.symm)
      simp [leftQuoteMark, List.isPrefixOf, hbeq]

/-- The quote-marker removal is the identity on marker-free strings. -/
theorem quoteStripStep_fixed (s : Str) (h : 'Ä' ∉ s) : quoteStripStep s = s := by
  unfold quoteStripStep
  rw [leftQuoteMark_never_matches s h]
  rfl

/-- Shape invariants of every output of the text cleaner: its whitespace
consists of isolated plain spaces, it has no outer whitespace, and every
character is already NFKD-decomposed. -/
theorem clean_quote_text_props (x : Str) :
    wsOnly (clean_quote_text x) ∧ noAdjWS (clean_quote_text x) = true ∧
    headNotSpaceB (clean_quote_text x) = true ∧
    lastNotSpaceB (clean_quote_text x) = true ∧
    (∀ c ∈ clean_quote_text x, nfkdDecomposable c = false) := by
  unfold clean_quote_text
  split
  · exact ⟨fun c hc => absurd hc (List.not_mem_nil c), rfl, rfl, rfl,
      fun c hc => absurd hc (List.not_mem_nil c)⟩
  · set w1 := collapseWS (quoteStripStep (stripList (nfkd x))) with hw1
    set w2 := replaceChar '\n' ' ' w1 with hw2
    set w3 := replaceChar '\r' ' ' w2 with hw3
    set w4 := replaceChar '\t' ' ' w3 with hw4
    have hws1 : wsOnly w1 := wsOnly_collapseGo false _
    have hws2 : wsOnly w2 := wsOnly_replaceChar _ _ hws1
    have hws3 : wsOnly w3 := wsOnly_replaceChar _ _ hws2
    have hws4 : wsOnly w4 := wsOnly_replaceChar _ _ hws3
    have hadj1 : noAdjWS w1 = true := noAdjWS_collapseGo _ false
    have hadj2 : noAdjWS w2 = true := by
      rw [hw2, noAdjWS_replaceChar _ (by decide)]
      exact hadj1
    have hadj3 : noAdjWS w3 = true := by
      rw [hw3, noAdjWS_replaceChar _ (by decide)]
      exact hadj2
    have hadj4 : noAdjWS w4 = true := by
      rw [hw4, noAdjWS_replaceChar _ (by decide)]
      exact hadj3
    have hdom0 : ∀ c ∈ nfkd x, nfkdDecomposable c = false := nfkd_not_decomposable x
    have hdomA : ∀ c ∈ stripList (nfkd x), nfkdDecomposable c = false :=
      fun c hc => hdom0 c (mem_stripList hc)
    have hdomB : ∀ c ∈ quoteStripStep (stripList (nfkd x)), nfkdDecomposable c = false := by
      intro c hc
      unfold quoteStripStep at hc
      split at hc
      · exact hdomA c ((List.drop_sublist 1 _).subset ((List.dropLast_sublist _).subset hc))
      · exact hdomA c hc
    have hdom1 : ∀ c ∈ w1, nfkdDecomposable c = false := by
      intro c hc
      rcases mem_collapseGo _ false hc with rfl | ⟨h2, -⟩
      · decide
      · exact hdomB c h2
    have hdom2 : ∀ c ∈ w2, nfkdDecomposable c = false := by
      intro c hc
      rcases List.mem_map.mp hc with ⟨c0, hc0, rfl⟩
      split
      · decide
      · exact hdom1 c0 hc0
    have hdom3 : ∀ c ∈ w3, nfkdDecomposable c = false := by
      intro c hc
      rcases List.mem_map.mp hc with ⟨c0, hc0, rfl⟩
      split
      · decide
      · exact hdom2 c0 hc0
    have hdom4 : ∀ c ∈ w4, nfkdDecomposable c = false := by
      intro c hc
      rcases List.mem_map.mp hc with ⟨c0, hc0, rfl⟩
      split
      · decide
      · exact hdom3 c0 hc0
    exact ⟨fun c hc hsp => hws4 c (mem_stripList hc) hsp,
      noAdjWS_stripRight _ (noAdjWS_stripLeft _ hadj4),
      headNotSpaceB_stripRight _ (headNotSpaceB_stripLeft w4),
      lastNotSpaceB_stripRight _,
      fun c hc => hdom4 c (mem_stripList hc)⟩

/-- Every string satisfying the cleaner's output invariants is a fixed
point of the cleaner. -/
theorem clean_quote_text_fixed (y : Str) (hws : wsOnly y) (hadj : noAdjWS y = true)
    (hh : headNotSpaceB y = true) (hl : lastNotSpaceB y = true)
    (hdom : ∀ c ∈ y, nfkdDecomposable c = false) :
    clean_quote_text y = y := by
  by_cases hy : y = []
  · subst hy; rfl
  · have hstrip : stripList y = y := by
      rw [stripList, stripLeft_of_headNot y hh, stripRight_of_lastNot y hl]
    have hA : 'Ä' ∉ y := fun hA => absurd (hdom 'Ä' hA) (by decide)
    have hnl : ∀ c ∈ y, c ≠ '\n' := fun c hc he => by
      subst he
      exact absurd (hws '\n' hc (by decide)) (by decide)
    have hnr : ∀ c ∈ y, c ≠ '\r' := fun c hc he => by
      subst he
      exact absurd (hws '\r' hc (by decide)) (by decide)
    have hnt : ∀ c ∈ y, c ≠ '\t' := fun c hc he => by
      subst he
      exact absurd (hws '\t' hc (by decide)) (by decide)
    unfold clean_quote_text
    rw [if_neg hy, nfkd_fixed y hdom, hstrip, quoteStripStep_fixed y hA,
      show collapseWS y = y from (collapseGo_fix y hws hadj).1,
      replaceChar_of_not_mem '\n' ' ' y hnl, replaceChar_of_not_mem '\r' ' ' y hnr,
      replaceChar_of_not_mem '\t' ' ' y hnt, hstrip]

/-- Claim C2: the text cleaner `clean_quote_text` is idempotent — cleaning
an already-cleaned string returns it unchanged, for every input string. -/
theorem clean_quote_text_idempotent (x : Str) :
    clean_quote_text (clean_quote_text x) = clean_quote_text x := by
  obtain ⟨hws, hadj, hh, hl, hdom⟩ := clean_quote_text_props x
  exact clean_quote_text_fixed _ hws hadj hh hl hdom

end Webscraping
